import Mathlib

/-!
Verification of the gojo-com-documentation PDF scraper (Go, `src/main.go` and
the unnamed source variants).  The Go functions are shallowly embedded as
executable Lean definitions; HTTP and the filesystem are modelled as explicit
environments threaded through the stateful functions.
-/

namespace Gojo

/-! ### Characters and small string helpers -/

/-- The double-quote character `"`. -/
def quoteChar : Char := Char.ofNat 34

/-- The single-quote character. -/
def apostChar : Char := Char.ofNat 39

/-- Go regexp `\s` (Perl class): exactly tab, newline, form feed,
carriage return and space. -/
def goIsSpace (c : Char) : Bool :=
  c = ' ' || c = '\t' || c = '\n' || c = Char.ofNat 12 || c = '\r'

/-- Membership in the regex character class `[^\s"'<>]` used by
`extractPDFLinks`'s pattern. -/
def inUrlClass (c : Char) : Bool :=
  !(goIsSpace c || c = quoteChar || c = apostChar || c = '<' || c = '>')

/-- `startsWithList pat l`: `pat` is a literal prefix of `l`. -/
def startsWithList : List Char → List Char → Bool
  | [], _ => true
  | _ :: _, [] => false
  | p :: ps, c :: cs => p = c && startsWithList ps cs

/-! ### The pattern `https?://[^\s"'<>]+?\.pdf(?:\?[^\s"'<>]*)?`

Go's `regexp` package uses leftmost-first (Perl-style) matching.  For this
fixed pattern that means: match the literal scheme prefix (`https?` prefers
taking the `s`; the two alternatives never overlap since `://` must follow),
then the lazy `[^\s"'<>]+?` consumes the *fewest* class characters (at least
one) such that the literal `.pdf` follows, and finally the greedy optional
group takes `?` plus the longest run of class characters whenever the next
character is `?`.  `FindAllString(line, -1)` returns successive leftmost
non-overlapping matches, resuming after each match's end. -/

def httpsChars : List Char := ['h', 't', 't', 'p', 's', ':', '/', '/']

def httpChars : List Char := ['h', 't', 't', 'p', ':', '/', '/']

def pdfSuffixChars : List Char := ['.', 'p', 'd', 'f']

/-- Match the literal `https?://` at the head of the input: the matched
characters and the remainder. -/
def matchScheme (cs : List Char) : Option (List Char × List Char) :=
  if startsWithList httpsChars cs then some (httpsChars, cs.drop 8)
  else if startsWithList httpChars cs then some (httpChars, cs.drop 7)
  else none

/-- If the list starts with the literal `.pdf`, return the remainder. -/
def dropDotPdf (l : List Char) : Option (List Char) :=
  if startsWithList pdfSuffixChars l then some (l.drop 4) else none

/-- Lazy `[^\s"'<>]+?` followed by the literal `.pdf`: consume the minimal
positive number of class characters after which `.pdf` matches; returns the
consumed characters (`.pdf` included) and the remainder. -/
def lazyBodyPdf : List Char → Option (List Char × List Char)
  | [] => none
  | c :: rest =>
    if inUrlClass c then
      match dropDotPdf rest with
      | some r => some (c :: pdfSuffixChars, r)
      | none =>
        match lazyBodyPdf rest with
        | some (m, r) => some (c :: m, r)
        | none => none
    else none

/-- Longest run of class characters (the greedy `[^\s"'<>]*`). -/
def takeClassRun : List Char → List Char × List Char
  | [] => ([], [])
  | c :: rest =>
    if inUrlClass c then
      let (run, r) := takeClassRun rest
      (c :: run, r)
    else ([], c :: rest)

/-- The greedy optional query group `(?:\?[^\s"'<>]*)?`. -/
def optQuery : List Char → List Char × List Char
  | [] => ([], [])
  | c :: rest =>
    if c = '?' then
      let (run, r) := takeClassRun rest
      (c :: run, r)
    else ([], c :: rest)

/-- Try to match the whole PDF-link pattern at the current position. -/
def matchPdfAt (cs : List Char) : Option (List Char × List Char) :=
  match matchScheme cs with
  | none => none
  | some (pre, rest) =>
    match lazyBodyPdf rest with
    | none => none
    | some (mid, rest2) =>
      let (q, rest3) := optQuery rest2
      some (pre ++ mid ++ q, rest3)

/-- `FindAllString(line, -1)`, fuelled so that the recursion is structural
(every match consumes at least one character, so fuel `l.length` is always
sufficient and the `0` case is unreachable). -/
def findAllPdfAux : Nat → List Char → List String
  | 0, _ => []
  | _ + 1, [] => []
  | fuel + 1, c :: rest =>
    match matchPdfAt (c :: rest) with
    | some (m, r) => String.mk m :: findAllPdfAux fuel r
    | none => findAllPdfAux fuel rest

/-- All matches of the PDF-link pattern in one line, leftmost first,
non-overlapping. -/
def findAllPdf (l : List Char) : List String := findAllPdfAux l.length l

/-- Go `strings.Split(s, "\n")`: split at every newline, keeping empty
fields. -/
def splitLinesChars : List Char → List (List Char)
  | [] => [[]]
  | c :: rest =>
    match splitLinesChars rest with
    | [] => [[]]
    | l :: ls => if c = '\n' then [] :: l :: ls else (c :: l) :: ls

/-- The inner loop of `extractPDFLinks`: for each match, if it is not in the
`seen` set, record it and append it to `links`.  The Go `map[string]struct{}`
is modelled as a list used as a set. -/
def scanLine : List String → List String → List String → List String × List String
  | [], seen, links => (seen, links)
  | m :: ms, seen, links =>
    if seen.contains m then scanLine ms seen links
    else scanLine ms (m :: seen) (links ++ [m])

/-- The outer loop of `extractPDFLinks` over the lines. -/
def extractLoop : List (List Char) → List String → List String → List String × List String
  | [], seen, links => (seen, links)
  | line :: more, seen, links =>
    let (seen', links') := scanLine (findAllPdf line) seen links
    extractLoop more seen' links'

/-- `extractPDFLinks` from `src/main.go`: scan the content line by line and
return all unique `.pdf` URLs in first-seen order. -/
def extractPDFLinks (htmlContent : String) : List String :=
  (extractLoop (splitLinesChars htmlContent.toList) [] []).2

/-- `removeDuplicatesFromSlice` from `src/main.go`: same seen-set loop over a
ready-made slice. -/
def removeDuplicatesFromSlice (slice : List String) : List String :=
  (scanLine slice [] []).2

/-! ### A model of `net/url.Parse`

`urlToFilename` calls the Go standard library's `url.Parse` and reads the
`Host`, `Path` (percent-decoded) and `RawQuery` fields of the result.  The
model below follows the control flow of `net/url`'s `Parse`/`parse` for
`viaRequest = false`: reject control bytes, split off the fragment at the
first `#`, extract and lower-case the scheme, split the query at the first
`?` (the `ForceQuery` special case produces the same observable fields),
treat a rootless remainder with a scheme as opaque, parse an authority after
`//` (userinfo before the last `@`, validated; port after the last `:` must
be digits), and percent-decode host and path, rejecting invalid escapes
(and, in the host, escapes below `0x80` other than `%25` as well as raw
characters that are not valid host characters). -/

def isAlphaGo (c : Char) : Bool :=
  ('a' ≤ c && c ≤ 'z') || ('A' ≤ c && c ≤ 'Z')

def isDigitGo (c : Char) : Bool := '0' ≤ c && c ≤ '9'

def isHexDigit (c : Char) : Bool :=
  isDigitGo c || ('a' ≤ c && c ≤ 'f') || ('A' ≤ c && c ≤ 'F')

def hexVal (c : Char) : Nat :=
  if isDigitGo c then c.toNat - 48
  else if 'a' ≤ c && c ≤ 'f' then c.toNat - 87
  else c.toNat - 55

/-- Go `strings.ToLower`, restricted to the simple one-rune case mapping
(identity outside the uppercase letters). -/
def goToLower (s : String) : String := String.mk (s.toList.map Char.toLower)

/-- Go `strings.ReplaceAll s (string old) (string new)` for one-character
`old`/`new`, the only form the program uses. -/
def replaceAllChar (s : String) (old new : Char) : String :=
  String.mk (s.toList.map fun c => if c = old then new else c)

/-- Index of the last occurrence of `c`, if any. -/
def lastIdx (c : Char) : List Char → Option Nat
  | [] => none
  | x :: xs =>
    match lastIdx c xs with
    | some n => some (n + 1)
    | none => if x = c then some 0 else none

/-- Go `strings.Cut` at the first occurrence of `c`: the part before, and
(if `c` occurs) the part after. -/
def cutAt (c : Char) : List Char → List Char × Option (List Char)
  | [] => ([], none)
  | x :: xs =>
    if x = c then ([], some xs)
    else
      let (pre, post) := cutAt c xs
      (x :: pre, post)

/-- Split before the first occurrence of `c`: the part before, and the rest
starting with `c` itself (empty if `c` does not occur). -/
def splitBeforeFirst (c : Char) : List Char → List Char × List Char
  | [] => ([], [])
  | x :: xs =>
    if x = c then ([], x :: xs)
    else
      let (pre, post) := splitBeforeFirst c xs
      (x :: pre, post)

/-- The percent-decoding modes of `net/url`'s `unescape` that the parser
uses. -/
inductive EscMode where
  | modePath
  | modeHost
  | modeFragment
deriving DecidableEq

/-- Raw (non-escaped) characters `net/url` accepts in a host: unreserved
characters, the sub-delimiters Go allows per its `shouldEscape(encodeHost)`
table, and all non-ASCII. -/
def validHostRawChar (c : Char) : Bool :=
  isAlphaGo c || isDigitGo c ||
    c = '-' || c = '.' || c = '_' || c = '~' ||
    c = '!' || c = '$' || c = '&' || c = apostChar || c = '(' || c = ')' ||
    c = '*' || c = '+' || c = ',' || c = ';' || c = '=' || c = ':' ||
    c = '[' || c = ']' || c = '<' || c = '>' || c = quoteChar ||
    c.toNat ≥ 128

/-- `net/url`'s `unescape`: percent-decode, failing on truncated or non-hex
escapes; in host mode additionally fail on escapes below `0x80` (other than
`%25`) and on invalid raw characters. -/
def unescapeList (mode : EscMode) : List Char → Option (List Char)
  | [] => some []
  | c :: rest =>
    if c = '%' then
      match rest with
      | a :: b :: rest2 =>
        if isHexDigit a && isHexDigit b then
          let v := 16 * hexVal a + hexVal b
          if mode = EscMode.modeHost && v < 128 && v ≠ 37 then none
          else
            match unescapeList mode rest2 with
            | some tail => some (Char.ofNat v :: tail)
            | none => none
        else none
      | _ => none
    else
      if mode = EscMode.modeHost && c.toNat < 128 && !validHostRawChar c then none
      else
        match unescapeList mode rest with
        | some tail => some (c :: tail)
        | none => none

/-- Go `validOptionalPort`: empty, or `:` followed by digits only. -/
def validOptionalPort : List Char → Bool
  | [] => true
  | c :: ds => c = ':' && ds.all isDigitGo

/-- Characters Go's `validUserinfo` accepts. -/
def validUserinfoChar (c : Char) : Bool :=
  isAlphaGo c || isDigitGo c ||
    c = '-' || c = '.' || c = '_' || c = ':' || c = '~' || c = '!' ||
    c = '$' || c = '&' || c = apostChar || c = '(' || c = ')' || c = '*' ||
    c = '+' || c = ',' || c = ';' || c = '=' || c = '%' || c = '@'

/-- Go `parseHost`: validate the optional port (after the closing `]` for a
bracketed host, else after the last `:`), then unescape the whole host
string in host mode. -/
def parseHost (h : List Char) : Option (List Char) :=
  match h with
  | '[' :: _ =>
    match lastIdx ']' h with
    | none => none
    | some i =>
      if validOptionalPort (h.drop (i + 1)) then unescapeList EscMode.modeHost h
      else none
  | _ =>
    match lastIdx ':' h with
    | none => unescapeList EscMode.modeHost h
    | some i =>
      if validOptionalPort (h.drop i) then unescapeList EscMode.modeHost h
      else none

/-- Go `parseAuthority`: userinfo (before the last `@`) is validated and
discarded (the program never reads `User`); the rest is the host. -/
def parseAuthority (auth : List Char) : Option (List Char) :=
  match lastIdx '@' auth with
  | none => parseHost auth
  | some i =>
    let ui := auth.take i
    if ui.all validUserinfoChar && (unescapeList EscMode.modePath ui).isSome then
      parseHost (auth.drop (i + 1))
    else none

/-- The loop of Go `getScheme`: `none` models the "missing protocol scheme"
error (a `:` before any scheme character); otherwise the (possibly empty)
scheme and the rest. -/
def schemeLoop (orig : List Char) : List Char → List Char → Option (List Char × List Char)
  | [], _ => some ([], orig)
  | c :: rest, acc =>
    if isAlphaGo c then schemeLoop orig rest (acc ++ [c])
    else if isDigitGo c || c = '+' || c = '-' || c = '.' then
      if acc = [] then some ([], orig) else schemeLoop orig rest (acc ++ [c])
    else if c = ':' then
      if acc = [] then none else some (acc, rest)
    else some ([], orig)

def schemeSplit (cs : List Char) : Option (List Char × List Char) :=
  schemeLoop cs cs []

/-- The fields of Go's `url.URL` that this program can observe.
`nonHierarchical` is `url.URL.Opaque`. -/
structure GoURL where
  scheme : String
  nonHierarchical : String
  host : String
  path : String
  rawQuery : String
  fragment : String
deriving DecidableEq, Repr

/-- Go's `stringContainsCTLByte`: any byte below space, or DEL. -/
def hasCtlByte (cs : List Char) : Bool :=
  cs.any fun c => c.toNat < 32 || c.toNat = 127

/-- `net/url`'s `parse(rawURL, viaRequest := false)` on the pre-fragment
part. -/
def parseMain (cs : List Char) : Option GoURL :=
  if hasCtlByte cs then none
  else
    match schemeSplit cs with
    | none => none
    | some (schemeCs, rest) =>
      let scheme := goToLower (String.mk schemeCs)
      let (rest2, qOpt) := cutAt '?' rest
      let rawQuery := String.mk (qOpt.getD [])
      if scheme ≠ "" && !startsWithList ['/'] rest2 then
        some ⟨scheme, String.mk rest2, "", "", rawQuery, ""⟩
      else if scheme = "" && !startsWithList ['/'] rest2
          && (splitBeforeFirst '/' rest2).1.contains ':' then
        none
      else if (scheme ≠ "" || !startsWithList ['/', '/', '/'] rest2)
          && startsWithList ['/', '/'] rest2 then
        let afterSlashes := rest2.drop 2
        let (auth, pathPart) := splitBeforeFirst '/' afterSlashes
        match parseAuthority auth with
        | none => none
        | some host =>
          match unescapeList EscMode.modePath pathPart with
          | none => none
          | some path =>
            some ⟨scheme, "", String.mk host, String.mk path, rawQuery, ""⟩
      else
        match unescapeList EscMode.modePath rest2 with
        | none => none
        | some path => some ⟨scheme, "", "", String.mk path, rawQuery, ""⟩

/-- `url.Parse`: split the fragment at the first `#`, parse the rest, then
unescape the fragment (an invalid fragment escape fails the whole parse). -/
def urlParse (rawURL : String) : Option GoURL :=
  let (pre, fragOpt) := cutAt '#' rawURL.toList
  match parseMain pre with
  | none => none
  | some u =>
    match fragOpt with
    | none => some u
    | some frag =>
      match unescapeList EscMode.modeFragment frag with
      | none => none
      | some f => some { u with fragment := String.mk f }

/-! ### `urlToFilename` and filesystem-path helpers -/

/-- The scan inside Go `filepath.Ext`: walk the string from its end; on the
first `.` return the suffix from it, on a path separator (`/` on Linux)
return `""`.  `r` is the reversed string, `acc` the characters already
walked (in original order). -/
def extSearch : List Char → List Char → String
  | [], _ => ""
  | c :: rest, acc =>
    if c = '/' then ""
    else if c = '.' then String.mk (c :: acc)
    else extSearch rest (c :: acc)

/-- `getFileExtension` from `src/main.go` (a direct call to
`filepath.Ext`). -/
def getFileExtension (p : String) : String :=
  extSearch p.toList.reverse []

/-- The blocklist `invalidChars` of `urlToFilename`, in source order. -/
def invalidChars : List Char :=
  [quoteChar, '\\', '/', ':', '*', '?', '<', '>', '|', '-']

/-- `urlToFilename` from `src/main.go`: parse failure yields `""`; otherwise
host, `_` + path with `/`→`_` (if the path is non-empty), `_` + query with
`&`→`_` (if the query is non-empty), blocklist characters replaced by `_`,
`.pdf` appended when `filepath.Ext` is not already `.pdf`, all
lower-cased. -/
def urlToFilename (rawURL : String) : String :=
  match urlParse rawURL with
  | none => ""
  | some parsed =>
    let f0 := parsed.host
    let f1 := if parsed.path ≠ "" then f0 ++ "_" ++ replaceAllChar parsed.path '/' '_' else f0
    let f2 :=
      if parsed.rawQuery ≠ "" then f1 ++ "_" ++ replaceAllChar parsed.rawQuery '&' '_'
      else f1
    let f3 := invalidChars.foldl (fun acc c => replaceAllChar acc c '_') f2
    let f4 := if getFileExtension f3 ≠ ".pdf" then f3 ++ ".pdf" else f3
    goToLower f4

/-- Collapse runs of `/` and drop a trailing `/`, as Go `path.Clean` does on
the paths this program builds (they never contain `.` or `..` segments,
which are the only `Clean` rewrites not modelled). -/
def cleanSlashes : List Char → List Char
  | [] => []
  | c :: rest =>
    if c = '/' then
      match cleanSlashes rest with
      | [] => []
      | '/' :: l => '/' :: l
      | l => '/' :: l
    else c :: cleanSlashes rest

/-- Go `filepath.Join(dir, name)` for the arguments this program produces:
join with `/`, then clean duplicate and trailing slashes. -/
def filepathJoin (dir name : String) : String :=
  if dir = "" then name
  else if name = "" then String.mk (cleanSlashes dir.toList)
  else String.mk (cleanSlashes (dir.toList ++ '/' :: name.toList))

/-! ### The downloader and the static fetcher

HTTP and the filesystem are explicit environments.  A `FetchResult` is what
`client.Get`/`http.Get` yields: a transport error (`err ≠ nil`, response
`nil`) or a response with a status code, a `Content-Type` header and a body
that reads either completely or up to a read error.  The filesystem is a
list of `(path, contents)` pairs; `FsEnv` says whether `os.Create` succeeds
at a path and how many bytes a failing `buf.WriteTo` manages to write.
`downloadPDF` also records the externally visible events (HTTP request,
file creation) so that "performs no request / no write" is statable. -/

inductive BodyRead where
  /-- `io.Copy`/`io.ReadAll` read the whole body. -/
  | ok (bytes : List Nat)
  /-- The read failed after `sofar`. -/
  | readErr (sofar : List Nat)
deriving DecidableEq

structure Response where
  status : Nat
  contentType : String
  body : BodyRead
deriving DecidableEq

inductive FetchResult where
  /-- `err ≠ nil`: no usable response. -/
  | transportErr
  | response (r : Response)
deriving DecidableEq

/-- The network, as one response per URL. -/
def HttpEnv := String → FetchResult

structure FileSys where
  files : List (String × List Nat)
deriving DecidableEq, Repr

/-- `fileExists` from `src/main.go` (`os.Stat` succeeding on a non-directory
path): here, the path has an entry in the file map. -/
def fileExists (fs : FileSys) (p : String) : Bool :=
  (fs.files.map Prod.fst).contains p

def FileSys.insert (fs : FileSys) (p : String) (content : List Nat) : FileSys :=
  ⟨fs.files ++ [(p, content)]⟩

structure FsEnv where
  /-- Does `os.Create` succeed at this path? -/
  createOk : String → Bool
  /-- `buf.WriteTo` outcome at this path: `none` = full write succeeds,
  `some k` = the write fails after `k` bytes. -/
  writeFailAfter : String → Option Nat

inductive Event where
  | httpGet (url : String)
  | fileCreate (path : String)
deriving DecidableEq, Repr

/-- `strings.Contains s sub`. -/
def occursIn (pat : List Char) : List Char → Bool
  | [] => startsWithList pat []
  | c :: cs => startsWithList pat (c :: cs) || occursIn pat cs

def strContains (s sub : String) : Bool := occursIn sub.toList s.toList

structure DownloadOutcome where
  ok : Bool
  fs : FileSys
  events : List Event
deriving DecidableEq, Repr

/-- `downloadPDF` from `src/main.go`: derive the filename and path; skip
(returning `false`) if the file exists; GET the URL; reject non-200 status,
a `Content-Type` not containing `application/pdf`, a body-read error and a
zero-byte body; only then create the file and write the buffered bytes. -/
def downloadPDF (http : HttpEnv) (fsEnv : FsEnv) (fs : FileSys)
    (finalURL outputDir : String) : DownloadOutcome :=
  let filename := urlToFilename finalURL
  let filePath := filepathJoin outputDir filename
  if fileExists fs filePath then ⟨false, fs, []⟩
  else
    match http finalURL with
    | .transportErr => ⟨false, fs, [.httpGet finalURL]⟩
    | .response r =>
      if r.status ≠ 200 then ⟨false, fs, [.httpGet finalURL]⟩
      else if !strContains r.contentType "application/pdf" then
        ⟨false, fs, [.httpGet finalURL]⟩
      else
        match r.body with
        | .readErr _ => ⟨false, fs, [.httpGet finalURL]⟩
        | .ok bytes =>
          if bytes.length = 0 then ⟨false, fs, [.httpGet finalURL]⟩
          else if !fsEnv.createOk filePath then
            ⟨false, fs, [.httpGet finalURL, .fileCreate filePath]⟩
          else
            match fsEnv.writeFailAfter filePath with
            | some k =>
              ⟨false, fs.insert filePath (bytes.take k),
                [.httpGet finalURL, .fileCreate filePath]⟩
            | none =>
              ⟨true, fs.insert filePath bytes,
                [.httpGet finalURL, .fileCreate filePath]⟩

/-- The download loop of `main` (`src/main.go` lines 40–42): call
`downloadPDF` on every extracted link in order, threading the filesystem;
the per-link boolean outcomes are recorded alongside. -/
def downloadLoop (http : HttpEnv) (fsEnv : FsEnv) :
    List String → FileSys → String → FileSys × List (String × Bool)
  | [], fs, _ => (fs, [])
  | u :: us, fs, dir =>
    let out := downloadPDF http fsEnv fs u dir
    let (fs', rest) := downloadLoop http fsEnv us out.fs dir
    (fs', (u, out.ok) :: rest)

/-- `getDataFromURL` from `src/main.go`.  On a transport error the Go code
only logs and then dereferences the `nil` response (`response.Body`): that
crash is modelled as `none`.  No status check is performed; a body-read
error only logs, and the bytes read so far are returned. -/
def getDataFromURL (http : HttpEnv) (uri : String) : Option (List Nat) :=
  match http uri with
  | .transportErr => none
  | .response r =>
    match r.body with
    | .ok bytes => some bytes
    | .readErr sofar => some sofar

/-! ### Reference definitions taken from the spec's words

These are *not* translated from the Go source: they restate, word for word,
what the specification says, and the refinement theorems compare them with
the source-derived definitions above. -/

/-- `s` ends with `suffx`. -/
def strEndsWith (s suffx : String) : Bool :=
  decide (s.toList.reverse.take suffx.toList.length = suffx.toList.reverse)

/-- Spec 4.3 (sanitizing policy), claim C4: host, then `_` + path with
slashes replaced by underscores (if the path is non-empty), then `_` + query
with ampersands replaced by underscores (if the query is non-empty); each
blocklist character replaced by an underscore; `.pdf` appended if the result
does not already end with it; the entire result lower-cased. -/
def specFilenameOfParts (host path rawQuery : String) : String :=
  let withPath := if path ≠ "" then host ++ "_" ++ replaceAllChar path '/' '_' else host
  let withQuery :=
    if rawQuery ≠ "" then withPath ++ "_" ++ replaceAllChar rawQuery '&' '_'
    else withPath
  let cleaned := invalidChars.foldl (fun acc c => replaceAllChar acc c '_') withQuery
  let suffixed := if strEndsWith cleaned ".pdf" then cleaned else cleaned ++ ".pdf"
  goToLower suffixed

/-- Spec 4.2 / claim C2's reference order: keep the first occurrence of each
string, drop later repeats. -/
def firstSeenDedup : List String → List String
  | [] => []
  | x :: xs => x :: firstSeenDedup (xs.filter fun y => !(y == x))
termination_by l => l.length
decreasing_by
  simp only [List.length_cons]
  exact Nat.lt_succ_of_le (List.length_filter_le _ _)

/-! ### Proof support: characterizing the seen-set loops -/

/-- The seen set after processing a match stream. -/
def seenAfter : List String → List String → List String
  | [], seen => seen
  | m :: ms, seen =>
    if seen.contains m then seenAfter ms seen else seenAfter ms (m :: seen)

/-- The links a match stream contributes, given the seen set so far. -/
def dedupFrom : List String → List String → List String
  | [], _ => []
  | m :: ms, seen =>
    if seen.contains m then dedupFrom ms seen else m :: dedupFrom ms (m :: seen)

theorem scanLine_eq (ms : List String) :
    ∀ seen links, scanLine ms seen links = (seenAfter ms seen, links ++ dedupFrom ms seen) := by
  induction ms with
  | nil => intro seen links; simp [scanLine, seenAfter, dedupFrom]
  | cons m ms ih =>
    intro seen links
    by_cases hm : m ∈ seen
    · simp [scanLine, seenAfter, dedupFrom, hm, ih]
    · simp [scanLine, seenAfter, dedupFrom, hm, ih]

theorem seenAfter_append (a : List String) :
    ∀ b seen, seenAfter (a ++ b) seen = seenAfter b (seenAfter a seen) := by
  induction a with
  | nil => intro b seen; simp [seenAfter]
  | cons m ms ih =>
    intro b seen
    by_cases hm : m ∈ seen
    · simp [seenAfter, hm, ih]
    · simp [seenAfter, hm, ih]

theorem dedupFrom_append (a : List String) :
    ∀ b seen, dedupFrom (a ++ b) seen = dedupFrom a seen ++ dedupFrom b (seenAfter a seen) := by
  induction a with
  | nil => intro b seen; simp [dedupFrom, seenAfter]
  | cons m ms ih =>
    intro b seen
    by_cases hm : m ∈ seen
    · simp [dedupFrom, seenAfter, hm, ih]
    · simp [dedupFrom, seenAfter, hm, ih]

theorem extractLoop_eq (lines : List (List Char)) :
    ∀ seen links, extractLoop lines seen links =
      (seenAfter ((lines.map findAllPdf).flatten) seen,
        links ++ dedupFrom ((lines.map findAllPdf).flatten) seen) := by
  induction lines with
  | nil => intro seen links; simp [extractLoop, seenAfter, dedupFrom]
  | cons line more ih =>
    intro seen links
    simp only [extractLoop, scanLine_eq, List.map_cons, List.flatten_cons]
    rw [ih, seenAfter_append, dedupFrom_append, List.append_assoc]

theorem dedupFrom_eq_firstSeenDedup (ms : List String) :
    ∀ seen, dedupFrom ms seen = firstSeenDedup (ms.filter fun x => !seen.contains x) := by
  induction ms with
  | nil => intro seen; simp [dedupFrom, firstSeenDedup]
  | cons m ms ih =>
    intro seen
    by_cases hm : m ∈ seen
    · rw [List.filter_cons]
      have h1 : (!seen.contains m) = false := by simp [hm]
      rw [h1]
      simp only [Bool.false_eq_true, if_false]
      simp only [dedupFrom]
      have h2 : seen.contains m = true := by simp [hm]
      rw [if_pos h2]
      exact ih seen
    · rw [List.filter_cons]
      have h1 : (!seen.contains m) = true := by simp [hm]
      rw [h1]
      simp only [if_true]
      simp only [dedupFrom]
      have h2 : ¬ seen.contains m = true := by simp [hm]
      rw [if_neg h2]
      rw [firstSeenDedup, ih (m :: seen), List.filter_filter]
      congr 2
      apply List.filter_congr
      intro a _
      simp only [List.contains_cons, Bool.not_or]

theorem mem_firstSeenDedup (l : List String) :
    ∀ a, a ∈ firstSeenDedup l → a ∈ l := by
  induction l using firstSeenDedup.induct with
  | case1 => intro a h; simp [firstSeenDedup] at h
  | case2 x xs ih =>
    intro a h
    rw [firstSeenDedup] at h
    rcases List.mem_cons.mp h with h1 | h1
    · exact h1 ▸ List.mem_cons_self _ _
    · exact List.mem_cons_of_mem _ (List.mem_filter.mp (ih a h1)).1

theorem firstSeenDedup_nodup (l : List String) : (firstSeenDedup l).Nodup := by
  induction l using firstSeenDedup.induct with
  | case1 => simp [firstSeenDedup]
  | case2 x xs ih =>
    rw [firstSeenDedup]
    refine List.nodup_cons.mpr ⟨?_, ih⟩
    intro hmem
    have h2 := (List.mem_filter.mp (mem_firstSeenDedup _ _ hmem)).2
    simp at h2

/-! ### Proof support: `filepath.Ext` versus "ends with `.pdf`" -/

theorem toList_mk (l : List Char) : (String.mk l).toList = l := rfl

theorem extSearch_pdf_shape (r : List Char) :
    ∀ acc, extSearch r acc = ".pdf" →
      ∃ mid rest, r = mid ++ '.' :: rest ∧ mid.reverse ++ acc = ['p', 'd', 'f'] := by
  induction r with
  | nil =>
    intro acc h
    simp only [extSearch] at h
    exact absurd h (by decide)
  | cons c rest ih =>
    intro acc h
    simp only [extSearch] at h
    by_cases h1 : c = '/'
    · rw [if_pos h1] at h
      exact absurd h (by decide)
    · rw [if_neg h1] at h
      by_cases h2 : c = '.'
      · rw [if_pos h2] at h
        have hl : c :: acc = ['.', 'p', 'd', 'f'] := by
          have := congrArg String.toList h
          simpa [toList_mk] using this
        refine ⟨[], rest, ?_, ?_⟩
        · simp [h2]
        · injection hl with _ hacc
      · rw [if_neg h2] at h
        obtain ⟨mid, rest', hshape, hacc⟩ := ih (c :: acc) h
        refine ⟨c :: mid, rest', by simp [hshape], ?_⟩
        simpa [List.append_assoc] using hacc

theorem extSearch_eq_pdf_iff (r : List Char) :
    extSearch r [] = ".pdf" ↔ r.take 4 = ['f', 'd', 'p', '.'] := by
  constructor
  · intro h
    obtain ⟨mid, rest, hshape, hacc⟩ := extSearch_pdf_shape r [] h
    have hmid : mid = ['f', 'd', 'p'] := by
      have h1 : mid.reverse = ['p', 'd', 'f'] := by simpa using hacc
      have h2 := congrArg List.reverse h1
      simpa using h2
    rw [hshape, hmid]
    rfl
  · intro h
    have hr : r = 'f' :: 'd' :: 'p' :: '.' :: r.drop 4 := by
      conv_lhs => rw [← List.take_append_drop 4 r]
      rw [h]
      rfl
    rw [hr]
    rfl

theorem getFileExtension_eq_pdf_iff (s : String) :
    getFileExtension s = ".pdf" ↔ strEndsWith s ".pdf" = true := by
  unfold getFileExtension strEndsWith
  rw [extSearch_eq_pdf_iff]
  rw [show (".pdf".toList.length) = 4 from rfl,
    show (".pdf".toList.reverse) = ['f', 'd', 'p', '.'] from rfl]
  simp [decide_eq_true_eq]

/-- The only point where the code's suffix test (`filepath.Ext ≠ ".pdf"`)
and the spec's wording ("does not already end with `.pdf`") could differ:
they agree on every string. -/
theorem ext_append_if_eq (x : String) :
    (if getFileExtension x ≠ ".pdf" then x ++ ".pdf" else x) =
      (if strEndsWith x ".pdf" = true then x else x ++ ".pdf") := by
  by_cases hp : strEndsWith x ".pdf" = true
  · have he : getFileExtension x = ".pdf" := (getFileExtension_eq_pdf_iff x).mpr hp
    rw [if_pos hp, if_neg (by simp [he])]
  · have he : ¬ getFileExtension x = ".pdf" :=
      fun hh => hp ((getFileExtension_eq_pdf_iff x).mp hh)
    rw [if_neg hp, if_pos he]

/-! ### Proof support: character-level facts for the filename invariants -/

theorem char_toNat_ofNat_valid {n : Nat} (h : n < 55296) : (Char.ofNat n).toNat = n := by
  have hv : n.isValidChar := Or.inl (by omega)
  simp only [Char.ofNat, hv, dif_pos, Char.ofNatAux, Char.toNat, UInt32.toNat]
  simp

theorem char_toLower_idem (c : Char) :
    Char.toLower (Char.toLower c) = Char.toLower c := by
  simp only [Char.toLower]
  by_cases h : c.toNat ≥ 65 ∧ c.toNat ≤ 90
  · rw [if_pos h]
    have ht : (Char.ofNat (c.toNat + 32)).toNat = c.toNat + 32 :=
      char_toNat_ofNat_valid (by omega)
    rw [ht, if_neg (by omega)]
  · rw [if_neg h, if_neg h]

theorem goToLower_idem (s : String) : goToLower (goToLower s) = goToLower s := by
  simp only [goToLower, toList_mk, List.map_map]
  have hc : Char.toLower ∘ Char.toLower = Char.toLower := funext char_toLower_idem
  rw [hc]

theorem char_toLower_mem_invalid {c : Char} (h : Char.toLower c ∈ invalidChars) :
    c ∈ invalidChars := by
  by_cases hu : c.toNat ≥ 65 ∧ c.toNat ≤ 90
  · exfalso
    simp only [Char.toLower] at h
    rw [if_pos hu] at h
    have ht : (Char.ofNat (c.toNat + 32)).toNat = c.toNat + 32 :=
      char_toNat_ofNat_valid (by omega)
    have hall : ∀ x ∈ invalidChars, ¬(97 ≤ x.toNat ∧ x.toNat ≤ 122) := by decide
    have h2 := hall _ h
    rw [ht] at h2
    exact h2 ⟨by omega, by omega⟩
  · simp only [Char.toLower] at h
    rw [if_neg hu] at h
    exact h

theorem strEndsWith_pdf_goToLower (x : String) (hx : strEndsWith x ".pdf" = true) :
    strEndsWith (goToLower x) ".pdf" = true := by
  simp only [strEndsWith, decide_eq_true_eq,
    show (".pdf".toList.length) = 4 from rfl,
    show (".pdf".toList.reverse) = ['f', 'd', 'p', '.'] from rfl] at hx ⊢
  simp only [goToLower, toList_mk]
  rw [← List.map_reverse, ← List.map_take, hx]
  rfl

theorem strEndsWith_append_pdf (x : String) : strEndsWith (x ++ ".pdf") ".pdf" = true := by
  simp only [strEndsWith, decide_eq_true_eq]
  have hl : (x ++ ".pdf").toList = x.toList ++ ".pdf".toList := by
    simp [String.toList, String.data_append]
  rw [hl, List.reverse_append]
  rfl

theorem mem_replaceAllChar {x : Char} {s : String} {a b : Char}
    (h : x ∈ (replaceAllChar s a b).toList) : x = b ∨ (x ∈ s.toList ∧ x ≠ a) := by
  simp only [replaceAllChar, toList_mk, List.mem_map] at h
  obtain ⟨c, hc, hx⟩ := h
  by_cases hca : c = a
  · left
    rw [← hx, if_pos hca]
  · right
    rw [← hx, if_neg hca]
    exact ⟨hc, hca⟩

theorem mem_foldl_replace (cs : List Char) :
    ∀ (s : String) (x : Char),
      x ∈ (cs.foldl (fun acc c => replaceAllChar acc c '_') s).toList →
      x = '_' ∨ (x ∈ s.toList ∧ x ∉ cs) := by
  induction cs with
  | nil =>
    intro s x h
    right
    exact ⟨h, by simp⟩
  | cons c cs ih =>
    intro s x h
    rw [List.foldl_cons] at h
    rcases ih _ _ h with h1 | ⟨h2, h3⟩
    · exact Or.inl h1
    · rcases mem_replaceAllChar h2 with h4 | ⟨h5, h6⟩
      · exact Or.inl h4
      · refine Or.inr ⟨h5, ?_⟩
        simp [List.mem_cons, h6, h3]

theorem not_invalid_after_fold {f2 : String} {d : Char}
    (hd : d ∈ ((invalidChars.foldl (fun acc c => replaceAllChar acc c '_') f2)).toList) :
    d ∉ invalidChars := by
  rcases mem_foldl_replace invalidChars f2 d hd with h1 | ⟨_, h2⟩
  · rw [h1]
    decide
  · exact h2

theorem filename_stage_ends_pdf (x : String) :
    strEndsWith (goToLower (if getFileExtension x ≠ ".pdf" then x ++ ".pdf" else x))
      ".pdf" = true := by
  apply strEndsWith_pdf_goToLower
  by_cases he : getFileExtension x = ".pdf"
  · rw [if_neg (by simp [he])]
    exact (getFileExtension_eq_pdf_iff x).mp he
  · rw [if_pos he]
    exact strEndsWith_append_pdf x

theorem filename_stage_chars (f2 : String) :
    ∀ c ∈ (goToLower
        (if getFileExtension (invalidChars.foldl (fun acc ch => replaceAllChar acc ch '_') f2)
              ≠ ".pdf" then
          (invalidChars.foldl (fun acc ch => replaceAllChar acc ch '_') f2) ++ ".pdf"
        else invalidChars.foldl (fun acc ch => replaceAllChar acc ch '_') f2)).toList,
      c ∉ invalidChars := by
  intro c hc hbad
  simp only [goToLower, toList_mk, List.mem_map] at hc
  obtain ⟨d, hd, hcd⟩ := hc
  have hdinv : d ∈ invalidChars := char_toLower_mem_invalid (hcd ▸ hbad)
  have hpdf : ∀ e ∈ (".pdf" : String).toList, e ∉ invalidChars := by decide
  by_cases he : getFileExtension (invalidChars.foldl (fun acc ch => replaceAllChar acc ch '_') f2) ≠ ".pdf"
  · rw [if_pos he] at hd
    have hsplit : d ∈ (invalidChars.foldl (fun acc ch => replaceAllChar acc ch '_') f2).toList
        ∨ d ∈ (".pdf" : String).toList := by
      have hl : ((invalidChars.foldl (fun acc ch => replaceAllChar acc ch '_') f2) ++ ".pdf").toList
          = (invalidChars.foldl (fun acc ch => replaceAllChar acc ch '_') f2).toList
            ++ (".pdf" : String).toList := by
        simp [String.toList, String.data_append]
      rw [hl] at hd
      exact List.mem_append.mp hd
    rcases hsplit with h1 | h1
    · exact not_invalid_after_fold h1 hdinv
    · exact hpdf d h1 hdinv
  · rw [if_neg he] at hd
    exact not_invalid_after_fold hd hdinv

/-! ### Concrete environments used by witnesses and counterexamples -/

/-- A server that always answers 404 with a small HTML body. -/
def httpEnv404 : HttpEnv :=
  fun _ => FetchResult.response ⟨404, "text/html", BodyRead.ok [1, 2]⟩

/-- A server that always answers 200 with a small PDF body. -/
def httpEnvPdf : HttpEnv :=
  fun _ => FetchResult.response ⟨200, "application/pdf", BodyRead.ok [1, 2]⟩

/-- A network on which every request fails in transport. -/
def httpEnvDown : HttpEnv := fun _ => FetchResult.transportErr

/-- A filesystem environment where creates and writes succeed. -/
def fsEnvOk : FsEnv := ⟨fun _ => true, fun _ => none⟩

/-! ## The claims -/

/-- **C7.**  In the orchestrator's download loop, every extracted link is
attempted, in discovery order, no matter what any earlier link's download
returned or did to the filesystem, on every network and filesystem
environment; the loop is a total function, so the run always terminates
normally. -/
theorem downloadLoop_attempts_every_link (http : HttpEnv) (fsEnv : FsEnv)
    (links : List String) (fs : FileSys) (dir : String) :
    ((downloadLoop http fsEnv links fs dir).2.map Prod.fst) = links := by
  induction links generalizing fs with
  | nil => rfl
  | cons u us ih => simp [downloadLoop, ih]

/-- **C6.**  `urlToFilename` is deterministic: two applications to the same
URL string yield identical filenames (the embedding is a pure function of
the URL string alone). -/
theorem urlToFilename_deterministic (s t : String) (h : s = t) :
    urlToFilename s = urlToFilename t := by rw [h]

/-- Witness for C6 at a concrete URL. -/
theorem urlToFilename_deterministic_witness :
    urlToFilename "https://x.test/a.pdf" = urlToFilename "https://x.test/a.pdf" :=
  urlToFilename_deterministic "https://x.test/a.pdf" "https://x.test/a.pdf" rfl

/-- **C8.**  For every URL string whose parse fails, `urlToFilename` returns
the empty string (the Go code logs the error; logging is not modelled). -/
theorem urlToFilename_parse_failure (raw : String) (h : urlParse raw = none) :
    urlToFilename raw = "" := by
  simp [urlToFilename, h]

/-- Witness for C8: `a%` has a truncated percent-escape, so `url.Parse`
fails. -/
theorem urlToFilename_parse_failure_witness :
    urlParse "https://x.test/a%" = none ∧ urlToFilename "https://x.test/a%" = "" :=
  ⟨by decide, urlToFilename_parse_failure "https://x.test/a%" (by decide)⟩

/-- **C10.**  If a file already exists at the derived destination path,
`downloadPDF` returns `false`, leaves the filesystem unchanged, and performs
no HTTP request and no filesystem operation (the event trace is empty). -/
theorem downloadPDF_skip_existing (http : HttpEnv) (fsEnv : FsEnv) (fs : FileSys)
    (url dir : String)
    (h : fileExists fs (filepathJoin dir (urlToFilename url)) = true) :
    downloadPDF http fsEnv fs url dir = ⟨false, fs, []⟩ := by
  simp only [downloadPDF]
  rw [if_pos h]

/-- Witness for C10 at a concrete URL and a filesystem already holding the
derived path. -/
theorem downloadPDF_skip_existing_witness :
    downloadPDF httpEnvPdf fsEnvOk ⟨[("PDFs/x.test__a.pdf", [9])]⟩
        "https://x.test/a.pdf" "PDFs/" =
      ⟨false, ⟨[("PDFs/x.test__a.pdf", [9])]⟩, []⟩ :=
  downloadPDF_skip_existing httpEnvPdf fsEnvOk ⟨[("PDFs/x.test__a.pdf", [9])]⟩
    "https://x.test/a.pdf" "PDFs/" (by decide)

/-- **C5, counterexample.**  The claim says `getDataFromURL` returns an
empty result on a non-2xx status; on a 404 whose body reads as `[1, 2]` the
code returns those bytes, not an empty result. -/
theorem getDataFromURL_404_not_empty :
    getDataFromURL httpEnv404 "https://www.gojo.com/en/SDS" = some [1, 2] ∧
      some [1, 2] ≠ some ([] : List Nat) := by
  constructor
  · rfl
  · simp

/-- **C5, amended.**  `getDataFromURL` checks no status at all: whenever a
response arrives it returns whatever the body read yields — the full body on
a clean read and the bytes read so far on a read error — regardless of the
status code; on a transport error it does not return an empty result but
dereferences the `nil` response (modelled as `none`, the crash). -/
theorem getDataFromURL_behaviour (http : HttpEnv) (uri : String) :
    (http uri = FetchResult.transportErr → getDataFromURL http uri = none) ∧
    (∀ r bytes, http uri = FetchResult.response r → r.body = BodyRead.ok bytes →
      getDataFromURL http uri = some bytes) ∧
    (∀ r sofar, http uri = FetchResult.response r → r.body = BodyRead.readErr sofar →
      getDataFromURL http uri = some sofar) := by
  refine ⟨fun h => ?_, fun r bytes hr hb => ?_, fun r sofar hr hb => ?_⟩
  · simp [getDataFromURL, h]
  · simp [getDataFromURL, hr, hb]
  · simp [getDataFromURL, hr, hb]

/-- Witness for C5's amended statement: a dead network yields the crash
marker, and a 404 yields its body. -/
theorem getDataFromURL_behaviour_witness :
    getDataFromURL httpEnvDown "https://www.gojo.com/en/SDS" = none ∧
      getDataFromURL httpEnv404 "https://www.gojo.com/en/SDS" = some [1, 2] :=
  ⟨(getDataFromURL_behaviour httpEnvDown "https://www.gojo.com/en/SDS").1 rfl,
    (getDataFromURL_behaviour httpEnv404 "https://www.gojo.com/en/SDS").2.1
      ⟨404, "text/html", BodyRead.ok [1, 2]⟩ [1, 2] rfl rfl⟩

/-- **C3, counterexample.**  For an input containing `https://x.test/a.pdf`,
`HTTPS://x.test/a.pdf?x=1` and a second `https://x.test/a.pdf`, the claim
expects exactly two unique links; the extractor returns one, because the
pattern `https?://` is case-sensitive and the upper-case occurrence does not
match. -/
theorem extractPDFLinks_not_two_links :
    (extractPDFLinks ("https://x.test/a.pdf" ++ " " ++ "HTTPS://x.test/a.pdf?x=1"
        ++ " " ++ "https://x.test/a.pdf")).length ≠ 2 := by
  decide

/-- **C3, amended.**  On that input the extractor returns exactly one unique
link, the lower-case one, in first-seen order. -/
theorem extractPDFLinks_case_sensitive :
    extractPDFLinks ("https://x.test/a.pdf" ++ " " ++ "HTTPS://x.test/a.pdf?x=1"
        ++ " " ++ "https://x.test/a.pdf") = ["https://x.test/a.pdf"] := by
  decide

/-- **C2.**  For every input text, `extractPDFLinks` returns exactly the
line-by-line match stream (input split on newline, pattern applied
independently per line) with later repeats dropped and the first-seen order
kept, and the result contains no string twice. -/
theorem extractPDFLinks_unique_first_seen (h : String) :
    extractPDFLinks h =
      firstSeenDedup (((splitLinesChars h.toList).map findAllPdf).flatten) ∧
    (extractPDFLinks h).Nodup := by
  have key : extractPDFLinks h =
      firstSeenDedup (((splitLinesChars h.toList).map findAllPdf).flatten) := by
    unfold extractPDFLinks
    simp only [extractLoop_eq, dedupFrom_eq_firstSeenDedup, List.nil_append]
    congr 1
    exact List.filter_true _
  exact ⟨key, key ▸ firstSeenDedup_nodup _⟩

/-- **C4.**  For every URL that parses, `urlToFilename` builds exactly what
the spec describes: host, then `_` + path with slashes replaced by
underscores (if the path is non-empty), then `_` + query with ampersands
replaced by underscores (if the query is non-empty); every blocklist
character replaced by `_`; `.pdf` appended when the result does not already
end with it; the whole result lower-cased. -/
theorem urlToFilename_follows_spec (raw : String) (u : GoURL)
    (h : urlParse raw = some u) :
    urlToFilename raw = specFilenameOfParts u.host u.path u.rawQuery := by
  simp only [urlToFilename, h, specFilenameOfParts]
  rw [ext_append_if_eq]

/-- Witness for C4 at a concrete URL. -/
theorem urlToFilename_follows_spec_witness :
    urlToFilename "https://x.test/a.pdf" = specFilenameOfParts "x.test" "/a.pdf" "" :=
  urlToFilename_follows_spec "https://x.test/a.pdf"
    ⟨"https", "", "x.test", "/a.pdf", "", ""⟩ (by decide)

/-- **C9.**  For every URL that parses successfully, the filename returned
by `urlToFilename` ends with `.pdf`, is entirely lower-case (a fixed point
of lower-casing), and contains no blocklist character. -/
theorem urlToFilename_result_invariants (raw : String) (u : GoURL)
    (h : urlParse raw = some u) :
    strEndsWith (urlToFilename raw) ".pdf" = true ∧
    goToLower (urlToFilename raw) = urlToFilename raw ∧
    ∀ c ∈ (urlToFilename raw).toList, c ∉ invalidChars := by
  simp only [urlToFilename, h]
  exact ⟨filename_stage_ends_pdf _, goToLower_idem _, filename_stage_chars _⟩

/-- Witness for C9 at a concrete URL. -/
theorem urlToFilename_result_invariants_witness :
    strEndsWith (urlToFilename "https://x.test/a.pdf") ".pdf" = true ∧
    goToLower (urlToFilename "https://x.test/a.pdf") = urlToFilename "https://x.test/a.pdf" ∧
    ∀ c ∈ (urlToFilename "https://x.test/a.pdf").toList, c ∉ invalidChars :=
  urlToFilename_result_invariants "https://x.test/a.pdf"
    ⟨"https", "", "x.test", "/a.pdf", "", ""⟩ (by decide)

/-- **C1.**  When the destination file does not already exist: (first part)
if the response fails a validation step — status not 200, `Content-Type` not
containing `application/pdf`, or zero bytes read — `downloadPDF` returns
`false` and leaves the filesystem untouched (no file is created anywhere);
(second part) a file appears at any path only when all checks passed and the
complete body was buffered (read in full, non-empty). -/
theorem downloadPDF_validation_gate (http : HttpEnv) (fsEnv : FsEnv) (fs : FileSys)
    (url dir : String)
    (hnew : fileExists fs (filepathJoin dir (urlToFilename url)) = false) :
    (∀ r, http url = FetchResult.response r →
      r.status ≠ 200 ∨ strContains r.contentType "application/pdf" = false ∨
        r.body = BodyRead.ok [] →
      downloadPDF http fsEnv fs url dir = ⟨false, fs, [Event.httpGet url]⟩) ∧
    (∀ p, fileExists fs p = false →
      fileExists (downloadPDF http fsEnv fs url dir).fs p = true →
      ∃ r bytes, http url = FetchResult.response r ∧ r.status = 200 ∧
        strContains r.contentType "application/pdf" = true ∧
        r.body = BodyRead.ok bytes ∧ bytes ≠ []) := by
  have hnot : ¬ (fileExists fs (filepathJoin dir (urlToFilename url)) = true) := by
    simp [hnew]
  constructor
  · intro r hr hfail
    simp only [downloadPDF]
    rw [if_neg hnot]
    simp only [hr]
    rcases hfail with h | h | h
    · rw [if_pos h]
    · by_cases h2 : r.status ≠ 200
      · rw [if_pos h2]
      · rw [if_neg h2, if_pos (by simp [h])]
    · by_cases h2 : r.status ≠ 200
      · rw [if_pos h2]
      · rw [if_neg h2]
        by_cases h3 : (!strContains r.contentType "application/pdf") = true
        · rw [if_pos h3]
        · rw [if_neg h3, h]
          simp
  · intro p hpold hpnew
    simp only [downloadPDF] at hpnew
    rw [if_neg hnot] at hpnew
    cases henv : http url with
    | transportErr =>
      simp only [henv] at hpnew
      exact absurd hpnew (by simp [hpold])
    | response r =>
      simp only [henv] at hpnew
      by_cases h2 : r.status ≠ 200
      · rw [if_pos h2] at hpnew
        exact absurd hpnew (by simp [hpold])
      · rw [if_neg h2] at hpnew
        by_cases h3 : (!strContains r.contentType "application/pdf") = true
        · rw [if_pos h3] at hpnew
          exact absurd hpnew (by simp [hpold])
        · rw [if_neg h3] at hpnew
          cases hbody : r.body with
          | readErr sofar =>
            simp only [hbody] at hpnew
            exact absurd hpnew (by simp [hpold])
          | ok bytes =>
            simp only [hbody] at hpnew
            by_cases h4 : bytes.length = 0
            · rw [if_pos h4] at hpnew
              exact absurd hpnew (by simp [hpold])
            · rw [if_neg h4] at hpnew
              refine ⟨r, bytes, rfl, by omega, by simpa using h3, hbody, ?_⟩
              intro hb
              exact h4 (by simp [hb])

/-- Witness for C1: on an empty filesystem, a 404 answer for a concrete URL
produces `false`, an unchanged filesystem, and only the GET event. -/
theorem downloadPDF_validation_gate_witness :
    downloadPDF httpEnv404 fsEnvOk ⟨[]⟩ "https://x.test/a.pdf" "PDFs/" =
      ⟨false, ⟨[]⟩, [Event.httpGet "https://x.test/a.pdf"]⟩ :=
  (downloadPDF_validation_gate httpEnv404 fsEnvOk ⟨[]⟩ "https://x.test/a.pdf" "PDFs/"
      (by decide)).1
    ⟨404, "text/html", BodyRead.ok [1, 2]⟩ rfl (Or.inl (by decide))

end Gojo
